import Mathlib

/-!
Verification of the firmware-bruteforce repository: a shallow embedding of
`src/filesystem-xor-bruteforce.rs` and `src/rc4_finder.rs`.

Bytes and machine words are modelled as `ℕ`; every place the Rust code
truncates to a machine width (an `as u32` / `as u8` cast or `u8` wrapping
arithmetic) carries an explicit `% 2 ^ w`.  Fallible operations (slice
indexing, the argument-parsing `?`) are modelled with `Option` where a claim
depends on them.
-/

namespace FirmwareBruteforce

/-- Magic constant `SQUASHFS_MAGIC_LE` (both source files). -/
def SQUASHFS_MAGIC_LE : ℕ := 0x73717368

/-- Magic constant `SQUASHFS_MAGIC_BE` (both source files). -/
def SQUASHFS_MAGIC_BE : ℕ := 0x68737173

/-- Magic constant `CRAMFS_MAGIC` (both source files). -/
def CRAMFS_MAGIC : ℕ := 0x28cd3d45

/-- Magic constant `CRAMFS_MAGIC_BE` (both source files). -/
def CRAMFS_MAGIC_BE : ℕ := 0x453dcd28

/-- Magic constant `JFFS2_MAGIC_BITMASK` (both source files). -/
def JFFS2_MAGIC_BITMASK : ℕ := 0x1985

/-- Magic constant `JFFS2_MAGIC_BITMASK_BE` (both source files). -/
def JFFS2_MAGIC_BITMASK_BE : ℕ := 0x8519

/-- The `FilesystemMatch` struct (identical in both source files). -/
structure FilesystemMatch where
  offset : ℕ
  fs_type : String
  endian : String
deriving DecidableEq

/-- The `key.to_le_bytes()` call for a `u32` key: the four little-endian bytes. -/
def key_to_le_bytes (key : ℕ) : List ℕ :=
  [key % 256, key / 256 % 256, key / 65536 % 256, key / 16777216 % 256]

/-- Function `xor_data` from filesystem-xor-bruteforce.rs:
`data.iter().enumerate().map(|(i, &byte)| byte ^ key_bytes[i % 4]).collect()`. -/
def xor_data (data : List ℕ) (key : ℕ) : List ℕ :=
  List.mapIdx (fun i byte => byte ^^^ (key_to_le_bytes key).getD (i % 4) 0) data

/-- The read `u32::from_le_bytes([data[i], data[i+1], data[i+2], data[i+3]])` in the
scan loop. -/
def magic32At (data : List ℕ) (i : ℕ) : ℕ :=
  data.getD i 0 + data.getD (i + 1) 0 * 256 + data.getD (i + 2) 0 * 65536 +
    data.getD (i + 3) 0 * 16777216

/-- The read `u16::from_le_bytes([data[i], data[i+1]])` in the scan loop. -/
def magic16At (data : List ℕ) (i : ℕ) : ℕ :=
  data.getD i 0 + data.getD (i + 1) 0 * 256

/-- The 32-bit if/else-if chain of the scan loop body: the matches pushed for
Squashfs and CramFS at offset `i`. -/
def checks32 (data : List ℕ) (i : ℕ) : List FilesystemMatch :=
  if magic32At data i = SQUASHFS_MAGIC_LE then [⟨i, "Squashfs", "Little Endian"⟩]
  else if magic32At data i = SQUASHFS_MAGIC_BE then [⟨i, "Squashfs", "Big Endian"⟩]
  else if magic32At data i = CRAMFS_MAGIC then [⟨i, "CramFS", "Little Endian"⟩]
  else if magic32At data i = CRAMFS_MAGIC_BE then [⟨i, "CramFS", "Big Endian"⟩]
  else []

/-- The 16-bit if/else-if chain of the scan loop body: the JFFS2 matches
pushed at offset `i`. -/
def checks16 (data : List ℕ) (i : ℕ) : List FilesystemMatch :=
  if magic16At data i = JFFS2_MAGIC_BITMASK then [⟨i, "JFFS2", "Little Endian"⟩]
  else if magic16At data i = JFFS2_MAGIC_BITMASK_BE then [⟨i, "JFFS2", "Big Endian"⟩]
  else []

/-- One full iteration of the scan loop body at offset `i`: the 32-bit checks
followed (unconditionally) by the 16-bit checks. -/
def checksAt (data : List ℕ) (i : ℕ) : List FilesystemMatch :=
  checks32 data i ++ checks16 data i

/-- Function `find_filesystem_magic` (identical in both source files): early return of
the empty vector when `data.len() < 4`, otherwise the loop
`for i in 0..=(data.len() - 4)` pushing matches in offset order. -/
def find_filesystem_magic (data : List ℕ) : List FilesystemMatch :=
  if data.length < 4 then []
  else (List.range (data.length - 4 + 1)).flatMap (checksAt data)

/-- Worker `start_key`: `(i * keys_per_thread) as u32` in both `main`s. -/
def workerStart (kpt i : ℕ) : ℕ := i * kpt % 2 ^ 32

/-- Worker `end_key`: `max_key` for the last worker, otherwise
`((i + 1) * keys_per_thread) as u32`, as in both `main`s. -/
def workerEnd (maxKey kpt n i : ℕ) : ℕ :=
  if i = n - 1 then maxKey else (i + 1) * kpt % 2 ^ 32

/-- The keys worker `i` actually iterates: the Rust half-open range
`start_key..end_key` of `worker_thread`, in ascending order (empty when
`start_key >= end_key`). -/
def workerKeys (maxKey kpt n i : ℕ) : List ℕ :=
  List.range' (workerStart kpt i) (workerEnd maxKey kpt n i - workerStart kpt i)

/-- Concatenation of all workers' iterated keys, in thread order. -/
def allWorkerKeys (maxKey kpt n : ℕ) : List ℕ :=
  (List.range n).flatMap (workerKeys maxKey kpt n)

/-- Value `keys_per_thread` of the XOR program: `(0xFFFFFFFF_u64 + 1) / num_threads`
(computed in `u64`, not truncated). -/
def xorKeysPerThread (n : ℕ) : ℕ := 2 ^ 32 / n

/-- The keys XOR worker `i` of `n` iterates. -/
def xorWorkerKeys (n i : ℕ) : List ℕ :=
  workerKeys 0xFFFFFFFF (xorKeysPerThread n) n i

/-- All keys iterated across the XOR program's `n` workers. -/
def xorAllKeys (n : ℕ) : List ℕ :=
  allWorkerKeys 0xFFFFFFFF (xorKeysPerThread n) n

/-- Value `max_key_value` from rc4_finder `main`. -/
def max_key_value (key_length : ℕ) : ℕ :=
  match key_length with
  | 1 => 0xFF
  | 2 => 0xFFFF
  | 3 => 0xFFFFFF
  | 4 => 0xFFFFFFFF
  | _ => 0xFFFFFFFF

/-- Value `keys_per_thread` of the RC4 program:
`((max_key_value as u64 + 1) / num_threads as u64) as u32`. -/
def rc4KeysPerThread (maxKey n : ℕ) : ℕ := (maxKey + 1) / n % 2 ^ 32

/-- All keys iterated across the RC4 program's `n` workers for a given
`max_key_value`. -/
def rc4AllKeys (maxKey n : ℕ) : List ℕ :=
  allWorkerKeys maxKey (rc4KeysPerThread maxKey n) n

/-- The `(key, match)` result entries a single XOR worker pushes, in push
order: for each key of its range, every match of the scan of the XOR-ed
buffer. -/
def xorWorkerResults (b : List ℕ) (n i : ℕ) : List (ℕ × FilesystemMatch) :=
  (xorWorkerKeys n i).flatMap fun key =>
    (find_filesystem_magic (xor_data b key)).map fun m => (key, m)

/-- All result entries of a full XOR brute-force run with `n` workers
(concatenated in thread order; the shared sink receives each worker's local
batch exactly once). -/
def xorSearchResults (b : List ℕ) (n : ℕ) : List (ℕ × FilesystemMatch) :=
  (List.range n).flatMap (xorWorkerResults b n)

/-- The `RC4` struct of rc4_finder.rs: state array `s : [u8; 256]` and the
two `u8` cursors. -/
structure RC4State where
  s : List ℕ
  i : ℕ
  j : ℕ
deriving DecidableEq

/-- The `<[u8]>::swap(a, b)` operation on the state array. -/
def listSwap (s : List ℕ) (a b : ℕ) : List ℕ :=
  (s.set a (s.getD b 0)).set b (s.getD a 0)

/-- One iteration of the key-scheduling loop of `RC4::new`:
`j = j.wrapping_add(s[i]).wrapping_add(key[i % key.len()]); s.swap(i, j)`. -/
def ksaStep (key : List ℕ) (p : List ℕ × ℕ) (i : ℕ) : List ℕ × ℕ :=
  let j := (p.2 + p.1.getD i 0 + key.getD (i % key.length) 0) % 256
  (listSwap p.1 i j, j)

/-- Constructor `RC4::new`: the identity array `s[i] = i as u8`, the 256 key-scheduling
steps, and the cursors left at `i = 0, j = 0`. -/
def RC4.new (key : List ℕ) : RC4State :=
  let sj := (List.range 256).foldl (ksaStep key) (List.range 256, 0)
  ⟨sj.1, 0, 0⟩

/-- The body of `RC4::decrypt`, recursing over the data bytes with the
evolving `(s, i, j)` state; each step performs
`i = i.wrapping_add(1); j = j.wrapping_add(s[i]); s.swap(i, j);
k = s[s[i].wrapping_add(s[j]) as usize]; output.push(byte ^ k)`. -/
def RC4.decryptAux (st : RC4State) : List ℕ → List ℕ
  | [] => []
  | byte :: rest =>
    let i' := (st.i + 1) % 256
    let j' := (st.j + st.s.getD i' 0) % 256
    let s' := listSwap st.s i' j'
    let k := s'.getD ((s'.getD i' 0 + s'.getD j' 0) % 256) 0
    (byte ^^^ k) :: RC4.decryptAux ⟨s', i', j'⟩ rest

/-- Function `rc4_decrypt` from rc4_finder.rs: a fresh `RC4::new(key)` instance, then
`decrypt` over the whole buffer. -/
def rc4_decrypt (data key : List ℕ) : List ℕ :=
  RC4.decryptAux (RC4.new key) data

/-- The `key_bytes` match of the RC4 `worker_thread`: little-endian bytes of
the `u32` key value, one arm per configured key length (the `_` arm repeats
the 4-byte case). -/
def rc4KeyBytes (key_length key_val : ℕ) : List ℕ :=
  match key_length with
  | 1 => [key_val % 256]
  | 2 => [key_val % 256, key_val / 256 % 256]
  | 3 => [key_val % 256, key_val / 256 % 256, key_val / 65536 % 256]
  | 4 => [key_val % 256, key_val / 256 % 256, key_val / 65536 % 256,
      key_val / 16777216 % 256]
  | _ => [key_val % 256, key_val / 256 % 256, key_val / 65536 % 256,
      key_val / 16777216 % 256]

/-- The key-length configuration of rc4_finder `main` for a successfully
parsed argument value `v`: `v.min(4).max(1)`.  A `none` result would model
the program aborting on the value; the source never aborts on a parsable
value, it clamps. -/
def key_length_config (v : ℕ) : Option ℕ :=
  some (max (min v 4) 1)

/-- The 104-byte buffer of the scanner-completeness scenario: all zeros
except the bytes `68 73 71 73` at offsets 100..103. -/
def bufC3 : List ℕ := List.replicate 100 0 ++ [0x68, 0x73, 0x71, 0x73]

/-- The 16-byte buffer of the end-to-end scenario: all zeros except bytes
4..7, chosen so that XOR with key `0xDEADBEEF` yields `73 71 73 68` there. -/
def bufC2 : List ℕ :=
  [0, 0, 0, 0, 0x9C, 0xCF, 0xDE, 0xB6, 0, 0, 0, 0, 0, 0, 0, 0]

/-- Modelled from the spec: swap of two entries of the RC4 permutation,
over a functional state representation (independent of the source's array
code, for the standard-RC4 comparison). -/
def specSwap (S : ℕ → ℕ) (a b : ℕ) : ℕ → ℕ :=
  fun m => if m = a then S b else if m = b then S a else S m

/-- Modelled from the spec: one key-scheduling step,
`j = (j + S[i] + key[i mod keylen]) mod 256` followed by the swap of `S[i]`
and `S[j]`. -/
def specKsaStep (key : List ℕ) (p : (ℕ → ℕ) × ℕ) (i : ℕ) : (ℕ → ℕ) × ℕ :=
  let j := (p.2 + p.1 i + key.getD (i % key.length) 0) % 256
  (specSwap p.1 i j, j)

/-- Modelled from the spec: the RC4 key schedule — start from the identity
permutation of 0..255, run the step for `i` in `0..256` in order. -/
def specSchedule (key : List ℕ) : (ℕ → ℕ) × ℕ :=
  (List.range 256).foldl (specKsaStep key) (fun m => m, 0)

/-- Modelled from the spec: state after scheduling — permutation `S` and
cursors `i = 0`, `j = 0`. -/
def specState (key : List ℕ) : (ℕ → ℕ) × ℕ × ℕ :=
  ((specSchedule key).1, 0, 0)

/-- Modelled from the spec: the keystream/decrypt loop — for each input byte
`i = (i+1) mod 256`, `j = (j + S[i]) mod 256`, swap `S[i]` and `S[j]`,
`k = S[(S[i] + S[j]) mod 256]`, output the input byte XOR `k`. -/
def specDecryptAux : ((ℕ → ℕ) × ℕ × ℕ) → List ℕ → List ℕ
  | _, [] => []
  | (S, i, j), byte :: rest =>
    let i' := (i + 1) % 256
    let j' := (j + S i') % 256
    let S' := specSwap S i' j'
    let k := S' ((S' i' + S' j') % 256)
    (byte ^^^ k) :: specDecryptAux (S', i', j') rest

/-- Modelled from the spec: standard RC4 applied to a buffer with a fresh
per-invocation state. -/
def spec_rc4 (data key : List ℕ) : List ℕ :=
  specDecryptAux (specState key) data

/-- Checked variant of `<[u8]>::swap`: `none` models the out-of-bounds
panic branch. -/
def listSwapChecked (s : List ℕ) (a b : ℕ) : Option (List ℕ) :=
  if a < s.length then
    if b < s.length then some (listSwap s a b) else none
  else none

/-- Checked variant of one key-scheduling step of `RC4::new`: `none` models
a panic of `key[i % key.len()]` (remainder by zero or out of bounds) or of
the state-array indexing/swap. -/
def ksaStepChecked (key : List ℕ) (st : Option (List ℕ × ℕ)) (i : ℕ) :
    Option (List ℕ × ℕ) :=
  st.bind fun p =>
    (if key.length = 0 then none else key[i % key.length]?).bind fun kb =>
      p.1[i]?.bind fun si =>
        (listSwapChecked p.1 i ((p.2 + si + kb) % 256)).map fun s' =>
          (s', (p.2 + si + kb) % 256)

/-- Checked variant of `RC4::new`: `some` exactly when no panic branch is
reachable during key scheduling. -/
def RC4.newChecked (key : List ℕ) : Option RC4State :=
  ((List.range 256).foldl (ksaStepChecked key) (some (List.range 256, 0))).map
    fun p => ⟨p.1, 0, 0⟩

/-- Checked variant of the `RC4::decrypt` loop body: every state-array index
is checked, `none` modelling a panic. -/
def RC4.decryptAuxChecked (st : RC4State) : List ℕ → Option (List ℕ)
  | [] => some []
  | byte :: rest =>
    st.s[(st.i + 1) % 256]?.bind fun si =>
      (listSwapChecked st.s ((st.i + 1) % 256)
          ((st.j + si) % 256)).bind fun s' =>
        s'[(st.i + 1) % 256]?.bind fun a =>
          s'[(st.j + si) % 256]?.bind fun c =>
            s'[(a + c) % 256]?.bind fun k =>
              (RC4.decryptAuxChecked
                  ⟨s', (st.i + 1) % 256, (st.j + si) % 256⟩ rest).map
                fun out => (byte ^^^ k) :: out

/-- Checked variant of `rc4_decrypt`. -/
def rc4_decryptChecked (data key : List ℕ) : Option (List ℕ) :=
  (RC4.newChecked key).bind fun st => RC4.decryptAuxChecked st data

/-- The state-representation relation between the source's array state and
the spec model's functional state: same 256 entries. -/
def SRel (s : List ℕ) (S : ℕ → ℕ) : Prop :=
  s.length = 256 ∧ ∀ m, m < 256 → s.getD m 0 = S m

/-! ### Keyspace partition lemmas -/

lemma mul_kpt_lt_of_le {maxKey kpt n i : ℕ} (hkpt : n * kpt ≤ maxKey + 1)
    (hmax : maxKey < 2 ^ 32) (hi : i ≤ n - 1) (hn : 1 ≤ n) : i * kpt < 2 ^ 32 := by
  rcases Nat.eq_zero_or_pos kpt with hk | hk
  · simp [hk]
  · have h1 : i * kpt ≤ (n - 1) * kpt := Nat.mul_le_mul_right _ hi
    rw [Nat.sub_one_mul] at h1
    omega

lemma mul_kpt_le_maxKey {maxKey kpt n i : ℕ} (hkpt : n * kpt ≤ maxKey + 1)
    (hi : i ≤ n - 1) (hn : 1 ≤ n) : i * kpt ≤ maxKey := by
  rcases Nat.eq_zero_or_pos kpt with hk | hk
  · simp [hk]
  · have h1 : i * kpt ≤ (n - 1) * kpt := Nat.mul_le_mul_right _ hi
    rw [Nat.sub_one_mul] at h1
    omega

lemma flatMap_workerKeys_front (maxKey kpt n : ℕ) (hn : 1 ≤ n)
    (hkpt : n * kpt ≤ maxKey + 1) (hmax : maxKey < 2 ^ 32) :
    ∀ m, m ≤ n - 1 →
      (List.range m).flatMap (workerKeys maxKey kpt n) = List.range' 0 (m * kpt) := by
  intro m
  induction m with
  | zero => intro _; simp
  | succ m ih =>
    intro hm
    rw [List.range_succ, List.flatMap_append, ih (by omega)]
    have hm' : m ≠ n - 1 := by omega
    have h1 : m * kpt < 2 ^ 32 := mul_kpt_lt_of_le hkpt hmax (by omega) hn
    have h2 : (m + 1) * kpt < 2 ^ 32 := mul_kpt_lt_of_le hkpt hmax hm hn
    have hsub : (m + 1) * kpt - m * kpt = kpt := by
      rw [Nat.succ_mul]; omega
    have happ := List.range'_append 0 (m * kpt) kpt 1
    simp only [Nat.zero_add, Nat.one_mul] at happ
    simp only [List.flatMap_cons, List.flatMap_nil, List.append_nil, workerKeys,
      workerStart, workerEnd, if_neg hm', Nat.mod_eq_of_lt h1, Nat.mod_eq_of_lt h2,
      hsub]
    rw [happ, Nat.succ_mul, Nat.add_comm (m * kpt) kpt]

lemma allWorkerKeys_eq (maxKey kpt n : ℕ) (hn : 1 ≤ n)
    (hkpt : n * kpt ≤ maxKey + 1) (hmax : maxKey < 2 ^ 32) :
    allWorkerKeys maxKey kpt n = List.range maxKey := by
  obtain ⟨m, rfl⟩ : ∃ m, n = m + 1 := ⟨n - 1, by omega⟩
  unfold allWorkerKeys
  rw [List.range_succ, List.flatMap_append,
    flatMap_workerKeys_front _ _ _ hn hkpt hmax m (by omega)]
  have h1 : m * kpt < 2 ^ 32 := mul_kpt_lt_of_le hkpt hmax (by omega) hn
  have h2 : m * kpt ≤ maxKey := mul_kpt_le_maxKey hkpt (by omega) hn
  have hlast : m = m + 1 - 1 := by omega
  have happ := List.range'_append 0 (m * kpt) (maxKey - m * kpt) 1
  simp only [Nat.zero_add, Nat.one_mul] at happ
  simp only [List.flatMap_cons, List.flatMap_nil, List.append_nil, workerKeys,
    workerStart, workerEnd, if_pos hlast, Nat.mod_eq_of_lt h1]
  rw [happ, List.range_eq_range']
  congr 1
  omega

lemma xorAllKeys_eq (n : ℕ) (hn : 1 ≤ n) :
    xorAllKeys n = List.range 0xFFFFFFFF := by
  unfold xorAllKeys xorKeysPerThread
  apply allWorkerKeys_eq _ _ _ hn _ (by norm_num)
  have : 2 ^ 32 / n * n ≤ 2 ^ 32 := Nat.div_mul_le_self _ _
  have heq : (0xFFFFFFFF : ℕ) + 1 = 2 ^ 32 := by norm_num
  rw [heq, Nat.mul_comm]
  exact this

lemma rc4AllKeys_eq (maxKey n : ℕ) (hn : 1 ≤ n) (hmax : maxKey < 2 ^ 32) :
    rc4AllKeys maxKey n = List.range maxKey := by
  unfold rc4AllKeys rc4KeysPerThread
  apply allWorkerKeys_eq _ _ _ hn _ hmax
  calc n * ((maxKey + 1) / n % 2 ^ 32)
      ≤ n * ((maxKey + 1) / n) := Nat.mul_le_mul_left _ (Nat.mod_le _ _)
    _ = (maxKey + 1) / n * n := Nat.mul_comm _ _
    _ ≤ maxKey + 1 := Nat.div_mul_le_self _ _

/-- C1: the claim says the workers' iterated key ranges cover the closed
keyspace `[0, max_key]` exactly once.  The code disagrees: each worker runs
the half-open Rust range `start_key..end_key`, and the last worker's
`end_key` is `max_key` itself, so the concatenation of all iterated keys is
exactly `[0, max_key)` — every key below `max_key` exactly once, and
`max_key` never — for both programs, every supported `max_key_value` and
every worker count. -/
theorem partition_covers_all_but_max_key (n L : ℕ) (hn : 1 ≤ n) (hL1 : 1 ≤ L)
    (hL4 : L ≤ 4) :
    xorAllKeys n = List.range 0xFFFFFFFF ∧ 0xFFFFFFFF ∉ xorAllKeys n ∧
      rc4AllKeys (max_key_value L) n = List.range (max_key_value L) ∧
      max_key_value L ∉ rc4AllKeys (max_key_value L) n := by
  have hmkv : max_key_value L < 2 ^ 32 := by
    interval_cases L <;> norm_num [max_key_value]
  have hx := xorAllKeys_eq n hn
  have hr := rc4AllKeys_eq (max_key_value L) n hn hmkv
  refine ⟨hx, ?_, hr, ?_⟩
  · rw [hx, List.mem_range]; omega
  · rw [hr, List.mem_range]; omega

/-- Witness for `partition_covers_all_but_max_key` at 3 workers and RC4 key
length 1. -/
theorem partition_covers_all_but_max_key_witness :
    (1 ≤ 3 ∧ 1 ≤ 1 ∧ (1 : ℕ) ≤ 4) ∧
      (xorAllKeys 3 = List.range 0xFFFFFFFF ∧ 0xFFFFFFFF ∉ xorAllKeys 3 ∧
        rc4AllKeys (max_key_value 1) 3 = List.range (max_key_value 1) ∧
        max_key_value 1 ∉ rc4AllKeys (max_key_value 1) 3) :=
  ⟨⟨by decide, by decide, by decide⟩,
    partition_covers_all_but_max_key 3 1 (by decide) (by decide) (by decide)⟩

/-! ### Scanner structure lemmas -/

lemma offset_of_mem_checks32 {data : List ℕ} {i : ℕ} {m : FilesystemMatch}
    (hm : m ∈ checks32 data i) : m.offset = i := by
  unfold checks32 at hm
  split_ifs at hm <;> simp_all

lemma offset_of_mem_checks16 {data : List ℕ} {i : ℕ} {m : FilesystemMatch}
    (hm : m ∈ checks16 data i) : m.offset = i := by
  unfold checks16 at hm
  split_ifs at hm <;> simp_all

lemma offset_of_mem_checksAt {data : List ℕ} {i : ℕ} {m : FilesystemMatch}
    (hm : m ∈ checksAt data i) : m.offset = i := by
  rcases List.mem_append.mp hm with h | h
  · exact offset_of_mem_checks32 h
  · exact offset_of_mem_checks16 h

lemma fs_type_of_mem_checks32 {data : List ℕ} {i : ℕ} {m : FilesystemMatch}
    (hm : m ∈ checks32 data i) : m.fs_type ≠ "JFFS2" := by
  unfold checks32 at hm
  split_ifs at hm <;> simp_all

lemma fs_type_of_mem_checks16 {data : List ℕ} {i : ℕ} {m : FilesystemMatch}
    (hm : m ∈ checks16 data i) : m.fs_type = "JFFS2" := by
  unfold checks16 at hm
  split_ifs at hm <;> simp_all

lemma checks32_length_le (data : List ℕ) (i : ℕ) : (checks32 data i).length ≤ 1 := by
  unfold checks32
  split_ifs <;> simp

lemma checks16_length_le (data : List ℕ) (i : ℕ) : (checks16 data i).length ≤ 1 := by
  unfold checks16
  split_ifs <;> simp

lemma mem_find_iff {data : List ℕ} {m : FilesystemMatch} :
    m ∈ find_filesystem_magic data ↔
      4 ≤ data.length ∧ ∃ i, i < data.length - 4 + 1 ∧ m ∈ checksAt data i := by
  unfold find_filesystem_magic
  split_ifs with h
  · simp only [List.not_mem_nil, false_iff]
    omega
  · rw [List.mem_flatMap]
    constructor
    · rintro ⟨i, hi, hmi⟩
      exact ⟨by omega, i, List.mem_range.mp hi, hmi⟩
    · rintro ⟨-, i, hi, hmi⟩
      exact ⟨i, List.mem_range.mpr hi, hmi⟩

/-- C9: every match the scanner returns lies fully inside the buffer: its
offset is at most `len - 4` (the loop's last offset), hence below `len`, and
in particular the tail offsets `len - 3` and `len - 2` — where only a 2-byte
JFFS2 magic could still fit — are never reported, because the single scan
loop stops at `len - 4` for the 16-bit check as well. -/
theorem scan_offset_in_bounds (data : List ℕ) (m : FilesystemMatch)
    (hm : m ∈ find_filesystem_magic data) :
    m.offset + 4 ≤ data.length ∧ m.offset < data.length ∧
      m.offset ≠ data.length - 3 ∧ m.offset ≠ data.length - 2 := by
  rw [mem_find_iff] at hm
  obtain ⟨h4, i, hi, hmi⟩ := hm
  have hoff : m.offset = i := offset_of_mem_checksAt hmi
  omega

/-- Witness for `scan_offset_in_bounds` on a 4-byte buffer holding the
Squashfs magic. -/
theorem scan_offset_in_bounds_witness :
    (⟨0, "Squashfs", "Little Endian"⟩ : FilesystemMatch) ∈
        find_filesystem_magic [0x68, 0x73, 0x71, 0x73] ∧
      ((⟨0, "Squashfs", "Little Endian"⟩ : FilesystemMatch).offset + 4 ≤
          ([0x68, 0x73, 0x71, 0x73] : List ℕ).length ∧
        (⟨0, "Squashfs", "Little Endian"⟩ : FilesystemMatch).offset <
          ([0x68, 0x73, 0x71, 0x73] : List ℕ).length ∧
        (⟨0, "Squashfs", "Little Endian"⟩ : FilesystemMatch).offset ≠
          ([0x68, 0x73, 0x71, 0x73] : List ℕ).length - 3 ∧
        (⟨0, "Squashfs", "Little Endian"⟩ : FilesystemMatch).offset ≠
          ([0x68, 0x73, 0x71, 0x73] : List ℕ).length - 2) :=
  ⟨by decide, scan_offset_in_bounds [0x68, 0x73, 0x71, 0x73] _ (by decide)⟩

set_option maxRecDepth 10000 in
/-- C3 counterexample: on the scenario buffer (bytes `68 73 71 73` at offset
100, no other signature bytes anywhere), the scanner's output is not the
single Squashfs/Big-Endian match the claim demands: those bytes read as a
little-endian `u32` equal `SQUASHFS_MAGIC_LE`, so the code reports Little
Endian. -/
theorem scanner_be_scenario_false :
    find_filesystem_magic bufC3 ≠ [⟨100, "Squashfs", "Big Endian"⟩] := by
  decide

set_option maxRecDepth 10000 in
/-- C3 (amended): the scanner returns the empty sequence (not an error) for
every buffer shorter than 4 bytes; and on the scenario buffer with bytes
`68 73 71 73` at offsets 100..103 and no other signature bytes it reports
exactly one match, at offset 100, type Squashfs, endianness Little. -/
theorem scanner_completeness_amended :
    (∀ data : List ℕ, data.length < 4 → find_filesystem_magic data = []) ∧
      find_filesystem_magic bufC3 = [⟨100, "Squashfs", "Little Endian"⟩] :=
  ⟨fun data h => by unfold find_filesystem_magic; rw [if_pos h], by decide⟩

/-- Witness for `scanner_completeness_amended` on a 3-byte buffer. -/
theorem scanner_completeness_amended_witness :
    ([1, 2, 3] : List ℕ).length < 4 ∧ find_filesystem_magic [1, 2, 3] = [] :=
  ⟨by decide, scanner_completeness_amended.1 [1, 2, 3] (by decide)⟩

/-! ### XOR transform lemmas -/

lemma xor_data_length (data : List ℕ) (key : ℕ) :
    (xor_data data key).length = data.length :=
  List.length_mapIdx

/-- C5: the repeating-4-byte XOR transform is an involution on every buffer
(including the empty one) for every key, and each output byte `i` is the
input byte XOR-ed with little-endian key byte `i % 4`. -/
theorem xor_data_involutive (data : List ℕ) (key : ℕ) :
    xor_data (xor_data data key) key = data ∧
      ∀ i, i < data.length →
        (xor_data data key).getD i 0 =
          data.getD i 0 ^^^ (key_to_le_bytes key).getD (i % 4) 0 := by
  constructor
  · apply List.ext_getElem
      (by rw [xor_data_length, xor_data_length])
    intro i h1 h2
    simp only [xor_data, List.getElem_mapIdx]
    simp [Nat.xor_assoc]
  · intro i h
    have h' : i < (xor_data data key).length := by rw [xor_data_length]; exact h
    rw [List.getD_eq_getElem _ _ h', List.getD_eq_getElem _ _ h]
    simp only [xor_data, List.getElem_mapIdx]

/-- Witness for `xor_data_involutive` at a 5-byte buffer, key `0xDEADBEEF`,
byte index 2. -/
theorem xor_data_involutive_witness :
    xor_data (xor_data [1, 2, 3, 4, 5] 0xDEADBEEF) 0xDEADBEEF = [1, 2, 3, 4, 5] ∧
      (xor_data [1, 2, 3, 4, 5] 0xDEADBEEF).getD 2 0 =
        ([1, 2, 3, 4, 5] : List ℕ).getD 2 0 ^^^
          (key_to_le_bytes 0xDEADBEEF).getD (2 % 4) 0 :=
  ⟨(xor_data_involutive [1, 2, 3, 4, 5] 0xDEADBEEF).1,
    (xor_data_involutive [1, 2, 3, 4, 5] 0xDEADBEEF).2 2 (by decide)⟩

/-! ### End-to-end XOR search -/

lemma mem_xorSearchResults {b : List ℕ} {n key : ℕ} {m : FilesystemMatch}
    (hk : key ∈ xorAllKeys n) (hm : m ∈ find_filesystem_magic (xor_data b key)) :
    (key, m) ∈ xorSearchResults b n := by
  unfold xorAllKeys allWorkerKeys at hk
  rw [List.mem_flatMap] at hk
  obtain ⟨i, hi, hki⟩ := hk
  unfold xorSearchResults
  rw [List.mem_flatMap]
  refine ⟨i, hi, ?_⟩
  unfold xorWorkerResults
  rw [List.mem_flatMap]
  exact ⟨key, hki, List.mem_map_of_mem _ hm⟩

/-- C2 (amended): for every 16-byte buffer where XOR with `0xDEADBEEF`
produces the bytes `73 71 73 68` at offsets 4..7, a full brute-force run
with any worker count reports the result entry with key `0xDEADBEEF`, type
Squashfs, offset 4 — but with endianness Big (those bytes read as a
little-endian `u32` equal `SQUASHFS_MAGIC_BE`), and entries for other keys
may appear as well, so this entry is contained in (not equal to) the result
set. -/
theorem xor_end_to_end_amended (b : List ℕ) (n : ℕ) (hn : 1 ≤ n)
    (hlen : b.length = 16)
    (h4 : (xor_data b 0xDEADBEEF).getD 4 0 = 0x73)
    (h5 : (xor_data b 0xDEADBEEF).getD 5 0 = 0x71)
    (h6 : (xor_data b 0xDEADBEEF).getD 6 0 = 0x73)
    (h7 : (xor_data b 0xDEADBEEF).getD 7 0 = 0x68) :
    (0xDEADBEEF, (⟨4, "Squashfs", "Big Endian"⟩ : FilesystemMatch)) ∈
      xorSearchResults b n := by
  apply mem_xorSearchResults
  · rw [xorAllKeys_eq n hn, List.mem_range]
    norm_num
  · have hylen : (xor_data b 0xDEADBEEF).length = 16 := by
      rw [xor_data_length, hlen]
    rw [mem_find_iff]
    refine ⟨by omega, 4, by omega, ?_⟩
    have h32 : magic32At (xor_data b 0xDEADBEEF) 4 = 0x68737173 := by
      unfold magic32At
      rw [h4, h5, h6, h7]
    unfold checksAt checks32
    rw [h32, if_neg (by norm_num [SQUASHFS_MAGIC_LE]),
      if_pos (by norm_num [SQUASHFS_MAGIC_BE])]
    exact List.mem_append_left _ (List.mem_singleton_self _)

/-- Witness for `xor_end_to_end_amended` on the scenario buffer with one
worker. -/
theorem xor_end_to_end_amended_witness :
    (1 ≤ 1 ∧ bufC2.length = 16 ∧
        (xor_data bufC2 0xDEADBEEF).getD 4 0 = 0x73 ∧
        (xor_data bufC2 0xDEADBEEF).getD 5 0 = 0x71 ∧
        (xor_data bufC2 0xDEADBEEF).getD 6 0 = 0x73 ∧
        (xor_data bufC2 0xDEADBEEF).getD 7 0 = 0x68) ∧
      (0xDEADBEEF, (⟨4, "Squashfs", "Big Endian"⟩ : FilesystemMatch)) ∈
        xorSearchResults bufC2 1 :=
  ⟨⟨by decide, by decide, by decide, by decide, by decide, by decide⟩,
    xor_end_to_end_amended bufC2 1 (by decide) (by decide) (by decide)
      (by decide) (by decide) (by decide)⟩

/-- C2 counterexample: on the scenario buffer the full one-worker search does
not return the claim's single entry `(0xDEADBEEF, Squashfs, Little, 4)`: the
entry actually produced for key `0xDEADBEEF` at offset 4 carries endianness
Big, and a second key, `0x73717368`, also produces entries (its little-endian
bytes turn the zero bytes of the buffer into the Squashfs magic). -/
theorem xor_end_to_end_claim_false :
    xorSearchResults bufC2 1 ≠
        [(0xDEADBEEF, ⟨4, "Squashfs", "Little Endian"⟩)] ∧
      (0x73717368, (⟨0, "Squashfs", "Little Endian"⟩ : FilesystemMatch)) ∈
        xorSearchResults bufC2 1 ∧
      (0x73717368 : ℕ) ≠ 0xDEADBEEF := by
  have hx1 : xorAllKeys 1 = List.range 0xFFFFFFFF := xorAllKeys_eq 1 (by norm_num)
  have hmemB : (0xDEADBEEF, (⟨4, "Squashfs", "Big Endian"⟩ : FilesystemMatch)) ∈
      xorSearchResults bufC2 1 :=
    mem_xorSearchResults (by rw [hx1, List.mem_range]; norm_num) (by decide)
  have hmemL : (0x73717368, (⟨0, "Squashfs", "Little Endian"⟩ : FilesystemMatch)) ∈
      xorSearchResults bufC2 1 :=
    mem_xorSearchResults (by rw [hx1, List.mem_range]; norm_num) (by decide)
  refine ⟨?_, hmemL, by norm_num⟩
  intro h
  rw [h] at hmemB
  exact absurd hmemB (by decide)

/-! ### Scanner output order -/

lemma flatMap_eq_of_single {α : Type} (f : ℕ → List α) (l : List ℕ) (hl : l.Nodup)
    (i : ℕ) (h : ∀ j ∈ l, j ≠ i → f j = []) :
    l.flatMap f = if i ∈ l then f i else [] := by
  induction l with
  | nil => simp
  | cons a t ih =>
    rw [List.flatMap_cons]
    rcases List.nodup_cons.mp hl with ⟨ha, ht⟩
    by_cases hai : a = i
    · subst hai
      have htnil : t.flatMap f = [] :=
        List.flatMap_eq_nil_iff.mpr fun j hj =>
          h j (List.mem_cons_of_mem _ hj) (by rintro rfl; exact ha hj)
      rw [htnil, List.append_nil, if_pos (List.mem_cons_self a t)]
    · rw [h a (List.mem_cons_self a t) hai, List.nil_append,
        ih ht fun j hj hji => h j (List.mem_cons_of_mem _ hj) hji]
      by_cases hit : i ∈ t
      · rw [if_pos hit, if_pos (List.mem_cons_of_mem _ hit)]
      · rw [if_neg hit, if_neg fun hmem => by
          rcases List.mem_cons.mp hmem with rfl | hmem
          · exact hai rfl
          · exact hit hmem]

lemma filter_find_filesystem_magic (data : List ℕ) (p : FilesystemMatch → Bool)
    (i : ℕ) (hp : ∀ m, p m = true → m.offset = i) :
    (find_filesystem_magic data).filter p =
      if 4 ≤ data.length ∧ i < data.length - 4 + 1 then
        (checksAt data i).filter p
      else [] := by
  unfold find_filesystem_magic
  by_cases h : data.length < 4
  · rw [if_pos h, List.filter_nil, if_neg (by omega)]
  · rw [if_neg h, List.filter_flatMap,
      flatMap_eq_of_single _ _ (List.nodup_range _) i fun j hj hji =>
        List.filter_eq_nil_iff.mpr fun m hm hpm =>
          hji (((offset_of_mem_checksAt hm).symm.trans (hp m hpm)))]
    by_cases hi : i < data.length - 4 + 1
    · rw [if_pos (List.mem_range.mpr hi), if_pos ⟨by omega, hi⟩]
    · rw [if_neg fun hmem => hi (List.mem_range.mp hmem),
        if_neg (by rintro ⟨-, h'⟩; exact hi h')]

lemma pairwise_flatMap_offset (g : ℕ → List ℕ) :
    ∀ l : List ℕ, List.Pairwise (· ≤ ·) l → (∀ j ∈ l, ∀ x ∈ g j, x = j) →
      List.Pairwise (· ≤ ·) (l.flatMap g) := by
  intro l
  induction l with
  | nil => intro _ _; simp
  | cons a t ih =>
    intro hl hg
    rw [List.flatMap_cons, List.pairwise_append]
    rcases List.pairwise_cons.mp hl with ⟨hat, ht⟩
    refine ⟨?_, ih ht fun j hj => hg j (List.mem_cons_of_mem _ hj), ?_⟩
    · apply List.pairwise_of_forall_mem_list
      intro x hx y hy
      rw [hg a (List.mem_cons_self a t) x hx, hg a (List.mem_cons_self a t) y hy]
    · intro x hx y hy
      rw [List.mem_flatMap] at hy
      obtain ⟨j, hj, hyj⟩ := hy
      rw [hg a (List.mem_cons_self a t) x hx,
        hg j (List.mem_cons_of_mem _ hj) y hyj]
      exact hat j hj

lemma filter_checks16_not_jffs2 (data : List ℕ) (i k : ℕ) :
    (checks16 data k).filter
      (fun m => m.offset == i && m.fs_type != "JFFS2") = [] :=
  List.filter_eq_nil_iff.mpr fun m hm => by
    simp [fs_type_of_mem_checks16 hm]

lemma filter_checks32_jffs2 (data : List ℕ) (i k : ℕ) :
    (checks32 data k).filter
      (fun m => m.offset == i && m.fs_type == "JFFS2") = [] :=
  List.filter_eq_nil_iff.mpr fun m hm => by
    simp [fs_type_of_mem_checks32 hm]

/-- C7: the scanner's output is sorted by ascending offset; any single offset
contributes at most two matches — at most one from the four 32-bit magic
constants and, independently (the 16-bit check runs whether or not the 32-bit
check matched), at most one from the two JFFS2 constants — and within one
offset the 32-bit match precedes the 16-bit match. -/
theorem scan_output_order (data : List ℕ) :
    List.Sorted (· ≤ ·)
        ((find_filesystem_magic data).map FilesystemMatch.offset) ∧
      (∀ i, ((find_filesystem_magic data).filter
          fun m => m.offset == i).length ≤ 2) ∧
      (∀ i, ((find_filesystem_magic data).filter
          fun m => m.offset == i && m.fs_type != "JFFS2").length ≤ 1) ∧
      (∀ i, ((find_filesystem_magic data).filter
          fun m => m.offset == i && m.fs_type == "JFFS2").length ≤ 1) ∧
      (∀ i, (find_filesystem_magic data).filter (fun m => m.offset == i) =
        ((find_filesystem_magic data).filter
          fun m => m.offset == i && m.fs_type != "JFFS2") ++
        ((find_filesystem_magic data).filter
          fun m => m.offset == i && m.fs_type == "JFFS2")) := by
  refine ⟨?_, ?_, ?_, ?_, ?_⟩
  · show List.Pairwise _ _
    unfold find_filesystem_magic
    split_ifs with h
    · simp
    · rw [List.map_flatMap]
      apply pairwise_flatMap_offset _ _ (List.pairwise_le_range _)
      intro j _ x hx
      rw [List.mem_map] at hx
      obtain ⟨m, hm, rfl⟩ := hx
      exact offset_of_mem_checksAt hm
  · intro i
    rw [filter_find_filesystem_magic data _ i fun m hm => beq_iff_eq.mp hm]
    split_ifs
    · calc ((checksAt data i).filter fun m => m.offset == i).length
          ≤ (checksAt data i).length := List.length_filter_le _ _
        _ = (checks32 data i).length + (checks16 data i).length :=
            List.length_append _ _
        _ ≤ 2 := by
            have := checks32_length_le data i
            have := checks16_length_le data i
            omega
    · simp
  · intro i
    rw [filter_find_filesystem_magic data _ i fun m hm => by
      rw [Bool.and_eq_true] at hm
      exact beq_iff_eq.mp hm.1]
    split_ifs
    · unfold checksAt
      rw [List.filter_append, filter_checks16_not_jffs2, List.append_nil]
      calc ((checks32 data i).filter _).length
          ≤ (checks32 data i).length := List.length_filter_le _ _
        _ ≤ 1 := checks32_length_le data i
    · simp
  · intro i
    rw [filter_find_filesystem_magic data _ i fun m hm => by
      rw [Bool.and_eq_true] at hm
      exact beq_iff_eq.mp hm.1]
    split_ifs
    · unfold checksAt
      rw [List.filter_append, filter_checks32_jffs2, List.nil_append]
      calc ((checks16 data i).filter _).length
          ≤ (checks16 data i).length := List.length_filter_le _ _
        _ ≤ 1 := checks16_length_le data i
    · simp
  · intro i
    rw [filter_find_filesystem_magic data _ i fun m hm => beq_iff_eq.mp hm,
      filter_find_filesystem_magic data _ i fun m hm => by
        rw [Bool.and_eq_true] at hm
        exact beq_iff_eq.mp hm.1,
      filter_find_filesystem_magic data _ i fun m hm => by
        rw [Bool.and_eq_true] at hm
        exact beq_iff_eq.mp hm.1]
    split_ifs
    · unfold checksAt
      rw [List.filter_append, List.filter_append, List.filter_append,
        filter_checks16_not_jffs2, filter_checks32_jffs2, List.append_nil,
        List.nil_append]
      have h32 : (checks32 data i).filter (fun m => m.offset == i) =
          (checks32 data i).filter
            (fun m => m.offset == i && m.fs_type != "JFFS2") :=
        List.filter_congr fun m hm => by
          simp [fs_type_of_mem_checks32 hm]
      have h16 : (checks16 data i).filter (fun m => m.offset == i) =
          (checks16 data i).filter
            (fun m => m.offset == i && m.fs_type == "JFFS2") :=
        List.filter_congr fun m hm => by
          simp [fs_type_of_mem_checks16 hm]
      rw [h32, h16]
    · simp

/-! ### RC4 involution -/

lemma decryptAux_involutive (st : RC4State) (data : List ℕ) :
    RC4.decryptAux st (RC4.decryptAux st data) = data := by
  induction data generalizing st with
  | nil => rfl
  | cons byte rest ih =>
    simp only [RC4.decryptAux]
    rw [ih]
    simp [Nat.xor_assoc]

/-- C6: the RC4 transform is an involution: decrypting twice with the same
1–4 byte key returns the original buffer, because each `rc4_decrypt` call
constructs a fresh `RC4::new(key)` instance and the keystream XOR is
symmetric. -/
theorem rc4_decrypt_involutive (data key : List ℕ) (h1 : 1 ≤ key.length)
    (h4 : key.length ≤ 4) :
    rc4_decrypt (rc4_decrypt data key) key = data :=
  decryptAux_involutive (RC4.new key) data

/-- Witness for `rc4_decrypt_involutive` at key `[7]` and buffer `[1,2,3]`. -/
theorem rc4_decrypt_involutive_witness :
    (1 ≤ ([7] : List ℕ).length ∧ ([7] : List ℕ).length ≤ 4) ∧
      rc4_decrypt (rc4_decrypt [1, 2, 3] [7]) [7] = [1, 2, 3] :=
  ⟨⟨by decide, by decide⟩,
    rc4_decrypt_involutive [1, 2, 3] [7] (by decide) (by decide)⟩

/-! ### RC4 agrees with the spec's standard RC4 -/

lemma getD_set_self (l : List ℕ) (a v : ℕ) (ha : a < l.length) :
    (l.set a v).getD a 0 = v := by
  rw [List.getD_eq_getElem?_getD, List.getElem?_set_self ha]
  rfl

lemma getD_set_of_ne (l : List ℕ) (a v m : ℕ) (h : a ≠ m) :
    (l.set a v).getD m 0 = l.getD m 0 := by
  rw [List.getD_eq_getElem?_getD, List.getElem?_set_ne h,
    ← List.getD_eq_getElem?_getD]

lemma listSwap_length (s : List ℕ) (a b : ℕ) :
    (listSwap s a b).length = s.length := by
  simp [listSwap]

lemma SRel.swap {s : List ℕ} {S : ℕ → ℕ} (h : SRel s S) {a b : ℕ}
    (ha : a < 256) (hb : b < 256) :
    SRel (listSwap s a b) (specSwap S a b) := by
  obtain ⟨hlen, hval⟩ := h
  refine ⟨by rw [listSwap_length, hlen], ?_⟩
  intro m hm
  unfold listSwap specSwap
  by_cases hmb : m = b
  · subst hmb
    rw [getD_set_self _ _ _ (by rw [List.length_set, hlen]; exact hm),
      hval a ha]
    by_cases hma : m = a
    · rw [if_pos hma, hma]
    · rw [if_neg hma, if_pos rfl]
  · rw [getD_set_of_ne _ _ _ _ (Ne.symm hmb)]
    by_cases hma : m = a
    · subst hma
      rw [getD_set_self _ _ _ (by rw [hlen]; exact hm), hval b hb, if_pos rfl]
    · rw [getD_set_of_ne _ _ _ _ (Ne.symm hma), hval m hm, if_neg hma,
        if_neg hmb]

lemma SRel_init : SRel (List.range 256) (fun m => m) := by
  refine ⟨List.length_range 256, ?_⟩
  intro m hm
  rw [List.getD_eq_getElem?_getD, List.getElem?_range hm]
  rfl

lemma ksa_foldl_rel (key : List ℕ) :
    ∀ l : List ℕ, (∀ x ∈ l, x < 256) → ∀ (s : List ℕ) (S : ℕ → ℕ) (j : ℕ),
      SRel s S →
      SRel (l.foldl (ksaStep key) (s, j)).1
          (l.foldl (specKsaStep key) (S, j)).1 ∧
        (l.foldl (ksaStep key) (s, j)).2 =
          (l.foldl (specKsaStep key) (S, j)).2 := by
  intro l
  induction l with
  | nil => exact fun _ s S j h => ⟨h, rfl⟩
  | cons a t ih =>
    intro hlt s S j h
    rw [List.foldl_cons, List.foldl_cons]
    have ha : a < 256 := hlt a (List.mem_cons_self a t)
    have hstep : ksaStep key (s, j) a
        = (listSwap s a ((j + S a + key.getD (a % key.length) 0) % 256),
            (j + S a + key.getD (a % key.length) 0) % 256) := by
      unfold ksaStep
      rw [h.2 a ha]
    rw [hstep]
    exact ih (fun x hx => hlt x (List.mem_cons_of_mem _ hx)) _ _ _
      (h.swap ha (Nat.mod_lt _ (by norm_num)))

lemma decryptAux_rel :
    ∀ (data s : List ℕ) (S : ℕ → ℕ) (i j : ℕ), SRel s S →
      RC4.decryptAux ⟨s, i, j⟩ data = specDecryptAux (S, i, j) data := by
  intro data
  induction data with
  | nil => intro s S i j _; rfl
  | cons byte rest ih =>
    intro s S i j h
    have hi' : (i + 1) % 256 < 256 := Nat.mod_lt _ (by norm_num)
    have hj' : (j + S ((i + 1) % 256)) % 256 < 256 := Nat.mod_lt _ (by norm_num)
    have hrel' : SRel (listSwap s ((i + 1) % 256) ((j + S ((i + 1) % 256)) % 256))
        (specSwap S ((i + 1) % 256) ((j + S ((i + 1) % 256)) % 256)) :=
      h.swap hi' hj'
    simp only [RC4.decryptAux, specDecryptAux]
    rw [h.2 _ hi']
    rw [hrel'.2 _ hi', hrel'.2 _ hj', hrel'.2 _ (Nat.mod_lt _ (by norm_num))]
    rw [ih _ _ _ _ hrel']

/-- C4: the RC4 engine implements standard RC4 exactly as the spec
describes: on every non-empty key and every buffer it agrees with an
independently-written functional model of the RC4 key schedule and
keystream (identity permutation, `j = (j + S[i] + key[i mod keylen]) mod
256` with swaps, cursors left at 0, and the standard PRGA step), and the
worker derives the key bytes for value `v` at configured length `L ∈ [1,4]`
as the `L` little-endian bytes of `v`. -/
theorem rc4_implements_standard_rc4 :
    (∀ key data : List ℕ, key ≠ [] → rc4_decrypt data key = spec_rc4 data key) ∧
      ∀ L v : ℕ, 1 ≤ L → L ≤ 4 →
        rc4KeyBytes L v = (List.range L).map fun t => v / 256 ^ t % 256 := by
  constructor
  · intro key data _
    unfold rc4_decrypt spec_rc4 specState RC4.new specSchedule
    exact decryptAux_rel data _ _ 0 0
      ((ksa_foldl_rel key (List.range 256)
        (fun x hx => List.mem_range.mp hx) _ _ 0 SRel_init).1)
  · intro L v h1 h4
    interval_cases L <;>
      simp [rc4KeyBytes, List.range_succ, Nat.pow_succ]

/-- Witness for `rc4_implements_standard_rc4` at key `[1,2,3,4]` and a
4-byte plaintext: the source RC4 output matches the independently computed
standard RC4 keystream XOR, and the 4-byte key-derivation arm matches the
little-endian bytes of `0xDEADBEEF`. -/
theorem rc4_implements_standard_rc4_witness :
    (([1, 2, 3, 4] : List ℕ) ≠ [] ∧
        rc4_decrypt [0x54, 0x65, 0x73, 0x74] [1, 2, 3, 4] =
          spec_rc4 [0x54, 0x65, 0x73, 0x74] [1, 2, 3, 4]) ∧
      (1 ≤ 4 ∧ (4 : ℕ) ≤ 4 ∧
        rc4KeyBytes 4 0xDEADBEEF =
          (List.range 4).map fun t => 0xDEADBEEF / 256 ^ t % 256) :=
  ⟨⟨by decide,
      rc4_implements_standard_rc4.1 [1, 2, 3, 4] [0x54, 0x65, 0x73, 0x74]
        (by decide)⟩,
    by decide, by decide,
    rc4_implements_standard_rc4.2 4 0xDEADBEEF (by decide) (by decide)⟩

/-! ### RC4 totality: no panic branch is reachable -/

lemma getElem?_eq_some_getD (l : List ℕ) (n : ℕ) (h : n < l.length) :
    l[n]? = some (l.getD n 0) := by
  rw [List.getElem?_eq_getElem h, List.getD_eq_getElem _ _ h]

lemma listSwapChecked_eq {s : List ℕ} {a b : ℕ} (ha : a < s.length)
    (hb : b < s.length) : listSwapChecked s a b = some (listSwap s a b) := by
  unfold listSwapChecked
  rw [if_pos ha, if_pos hb]

lemma ksa_foldl_checked (key : List ℕ) (hkey : key ≠ []) :
    ∀ l : List ℕ, (∀ x ∈ l, x < 256) → ∀ (s : List ℕ) (j : ℕ),
      s.length = 256 →
      l.foldl (ksaStepChecked key) (some (s, j)) =
          some (l.foldl (ksaStep key) (s, j)) ∧
        (l.foldl (ksaStep key) (s, j)).1.length = 256 := by
  intro l
  induction l with
  | nil => exact fun _ s j hs => ⟨rfl, hs⟩
  | cons a t ih =>
    intro hlt s j hs
    rw [List.foldl_cons, List.foldl_cons]
    have ha : a < 256 := hlt a (List.mem_cons_self a t)
    have hklen : key.length ≠ 0 := fun h => hkey (List.length_eq_zero.mp h)
    have hstep : ksaStepChecked key (some (s, j)) a
        = some (ksaStep key (s, j) a) := by
      unfold ksaStepChecked
      simp only [Option.some_bind]
      rw [if_neg hklen,
        getElem?_eq_some_getD key _ (Nat.mod_lt _ (Nat.pos_of_ne_zero hklen)),
        getElem?_eq_some_getD s a (by rw [hs]; exact ha)]
      simp only [Option.some_bind]
      rw [listSwapChecked_eq (by rw [hs]; exact ha)
        (by rw [hs]; exact Nat.mod_lt _ (by norm_num))]
      rfl
    rw [hstep]
    exact ih (fun x hx => hlt x (List.mem_cons_of_mem _ hx)) _ _
      (by rw [listSwap_length]; exact hs)

lemma decryptAuxChecked_eq :
    ∀ (data : List ℕ) (st : RC4State), st.s.length = 256 →
      RC4.decryptAuxChecked st data = some (RC4.decryptAux st data) := by
  intro data
  induction data with
  | nil => intro st _; rfl
  | cons byte rest ih =>
    intro st hs
    have hi' : (st.i + 1) % 256 < 256 := Nat.mod_lt _ (by norm_num)
    have hj' : (st.j + st.s.getD ((st.i + 1) % 256) 0) % 256 < 256 :=
      Nat.mod_lt _ (by norm_num)
    simp only [RC4.decryptAuxChecked, RC4.decryptAux]
    rw [getElem?_eq_some_getD _ _ (by rw [hs]; exact hi')]
    simp only [Option.some_bind]
    rw [listSwapChecked_eq (by rw [hs]; exact hi') (by rw [hs]; exact hj')]
    simp only [Option.some_bind]
    have hs' : (listSwap st.s ((st.i + 1) % 256)
        ((st.j + st.s.getD ((st.i + 1) % 256) 0) % 256)).length = 256 := by
      rw [listSwap_length]; exact hs
    rw [getElem?_eq_some_getD _ _ (by rw [hs']; exact hi'),
      getElem?_eq_some_getD _ _ (by rw [hs']; exact hj')]
    simp only [Option.some_bind]
    rw [getElem?_eq_some_getD _ _ (by rw [hs']; exact Nat.mod_lt _ (by norm_num))]
    simp only [Option.some_bind]
    rw [ih _ hs']
    rfl

set_option maxRecDepth 10000 in
/-- C10: on every non-empty key, `RC4::new` and `RC4::decrypt` are total —
the checked variants, in which every state-array index and the
`key[i % key.len()]` access can fail, return `some` of exactly what the
unchecked embedding computes, so no panic branch is reachable. -/
theorem rc4_total_no_panic (key data : List ℕ) (hkey : key ≠ []) :
    RC4.newChecked key = some (RC4.new key) ∧
      rc4_decryptChecked data key = some (rc4_decrypt data key) := by
  have hfold := ksa_foldl_checked key hkey (List.range 256)
    (fun x hx => List.mem_range.mp hx) (List.range 256) 0 (List.length_range 256)
  have hnew : RC4.newChecked key = some (RC4.new key) := by
    unfold RC4.newChecked RC4.new
    rw [hfold.1]
    rfl
  refine ⟨hnew, ?_⟩
  unfold rc4_decryptChecked rc4_decrypt
  rw [hnew]
  simp only [Option.some_bind]
  apply decryptAuxChecked_eq
  simp only [RC4.new]
  exact hfold.2

set_option maxRecDepth 10000 in
/-- Witness for `rc4_total_no_panic` at key `[5]` and buffer `[1,2]`. -/
theorem rc4_total_no_panic_witness :
    ([5] : List ℕ) ≠ [] ∧
      (RC4.newChecked [5] = some (RC4.new [5]) ∧
        rc4_decryptChecked [1, 2] [5] = some (rc4_decrypt [1, 2] [5])) :=
  ⟨by decide, rc4_total_no_panic [5] [1, 2] (by decide)⟩

/-! ### Key-length configuration -/

/-- C8 counterexample: the parsable out-of-range key length 9 is not
rejected — the program clamps it to 4 and proceeds (`none` would model an
abort). -/
theorem key_length_config_no_abort :
    key_length_config 9 ≠ none ∧ key_length_config 9 = some 4 ∧
      (4 : ℕ) ≠ 9 := by
  refine ⟨?_, rfl, by norm_num⟩
  intro h
  simp [key_length_config] at h

/-- C8 (amended): a parsable key-length value outside `[1,4]` is not a
configuration error: the program clamps it into `[1,4]`
(`v.min(4).max(1)`) and proceeds with the substituted length; in-range
values are used as given. -/
theorem key_length_config_clamps (v : ℕ) :
    ∃ L, key_length_config v = some L ∧ 1 ≤ L ∧ L ≤ 4 ∧
      (1 ≤ v → v ≤ 4 → L = v) := by
  refine ⟨max (min v 4) 1, rfl, by omega, by omega, fun h1 h4 => by omega⟩

/-- Witness for `key_length_config_clamps` at parsed value 0. -/
theorem key_length_config_clamps_witness :
    ∃ L, key_length_config 0 = some L ∧ 1 ≤ L ∧ L ≤ 4 ∧
      (1 ≤ 0 → 0 ≤ 4 → L = 0) :=
  key_length_config_clamps 0

end FirmwareBruteforce
